import Mathlib

/-!
Shallow embedding of the account-state reconciliation core of the
antigravity dashboard backend, and proofs of the specified properties.

The definitions mirror apps/backend/src/services/accountsFile.ts and
apps/backend/src/services/quotaService.ts. Timestamps are epoch
milliseconds modelled as integers; JavaScript Map objects are modelled as
association lists with insert-or-update-in-place semantics; optional
fields are Option values. Deep (JSON-stringification) equality of two
processed account records coincides with structural equality of the
embedded records, since the source always constructs these objects with
the same key set in the same order.
-/

/-- Rate-limit information for one model family, as stored on a processed
account (fields resetTime, timeUntilReset, isExpired of the TS
RateLimitInfo interface). -/
structure RateLimitInfo where
  resetTime : Int
  timeUntilReset : Int
  isExpired : Bool
deriving DecidableEq, Repr

/-- The pair of optional per-family rate-limit infos stored on a processed
account (the rateLimits field of LocalAccount). -/
structure RateLimits where
  claude : Option RateLimitInfo
  gemini : Option RateLimitInfo
deriving DecidableEq, Repr

/-- The four derived account statuses (TS type AccountStatus). -/
inductive AccountStatus where
  | available
  | rate_limited_claude
  | rate_limited_gemini
  | rate_limited_all
deriving DecidableEq, Repr

/-- A processed account record (TS interface LocalAccount). -/
structure LocalAccount where
  email : String
  projectId : Option String
  managedProjectId : Option String
  addedAt : Int
  lastUsed : Int
  isActive : Bool
  activeForClaude : Bool
  activeForGemini : Bool
  status : AccountStatus
  rateLimits : RateLimits
deriving DecidableEq, Repr

/-- The optional per-family reset-epoch map on a raw account record
(the rateLimitResetTimes field of RawAccountData). -/
structure RateLimitResetTimes where
  claude : Option Int
  gemini : Option Int
deriving DecidableEq, Repr

/-- A raw account record as read from the registry file
(TS interface RawAccountData). -/
structure RawAccountData where
  email : String
  refreshToken : String
  projectId : Option String
  managedProjectId : Option String
  addedAt : Int
  lastUsed : Int
  rateLimitResetTimes : Option RateLimitResetTimes
deriving DecidableEq, Repr

/-- The optional per-family active-index overrides of the registry file
(the activeIndexByFamily field of RawAccountsFile). -/
structure ActiveIndexByFamily where
  claude : Option Int
  gemini : Option Int
deriving DecidableEq, Repr

/-- The parsed registry file (TS interface RawAccountsFile). -/
structure RawAccountsFile where
  version : Int
  accounts : List RawAccountData
  activeIndex : Int
  activeIndexByFamily : Option ActiveIndexByFamily
deriving DecidableEq, Repr

/-- A diff operation emitted by calculateDiffs (TS interface AccountDiff;
the update payload is the full new account, matching the source which
sends the whole record in the changes field). -/
inductive AccountDiff where
  | add (email : String) (account : LocalAccount)
  | update (email : String) (changes : LocalAccount)
  | remove (email : String)
deriving DecidableEq, Repr

/-- The identifier an AccountDiff operation is about. -/
def AccountDiff.email : AccountDiff → String
  | .add e _ => e
  | .update e _ => e
  | .remove e => e

/-- The two model families. -/
inductive Family where
  | claude
  | gemini
deriving DecidableEq, Repr

/-- Payload of a rate_limit_cleared event emitted by the status clock. -/
structure ClearedEvent where
  email : String
  family : Family
deriving DecidableEq, Repr

/-! ### JavaScript Map model

A JS Map is an association list of key-value pairs in insertion order;
set updates an existing key in place or appends a missing key, delete
removes the entry, get returns the value of the (unique) entry. -/

/-- Map lookup (JS Map.get): value of the first entry with the key. -/
def jsGet {α : Type} (m : List (String × α)) (k : String) : Option α :=
  match m with
  | [] => none
  | p :: rest => if p.1 = k then some p.2 else jsGet rest k

/-- Map insertion (JS Map.set): update in place or append. -/
def jsSet {α : Type} (m : List (String × α)) (k : String) (v : α) :
    List (String × α) :=
  match m with
  | [] => [(k, v)]
  | p :: rest => if p.1 = k then (k, v) :: rest else p :: jsSet rest k v

/-- Map removal (JS Map.delete). -/
def jsDelete {α : Type} (m : List (String × α)) (k : String) :
    List (String × α) :=
  m.filter (fun p => decide (p.1 ≠ k))

/-- Map membership test (JS Map.has). -/
def jsHas {α : Type} (m : List (String × α)) (k : String) : Bool :=
  m.any (fun p => decide (p.1 = k))

/-- The keys of an association list are pairwise distinct. -/
def keysNodup {α : Type} (m : List (String × α)) : Prop :=
  (m.map Prod.fst).Nodup

/-- new Map(accounts.map(a => [a.email, a])): builds the identifier-keyed
map used by calculateDiffs; a later record with the same email overwrites
an earlier one. -/
def toAccountMap (accounts : List LocalAccount) : List (String × LocalAccount) :=
  accounts.foldl (fun m a => jsSet m a.email a) []

/-! ### accountsFile.ts: status derivation, builder, diff engine -/

/-- calculateAccountStatus (accountsFile.ts lines 189-197): derives the
status from the two rate-limit infos, in the exact source order. -/
def calculateAccountStatus (account : LocalAccount) : AccountStatus :=
  let claudeLimited :=
    match account.rateLimits.claude with
    | some i => !i.isExpired
    | none => false
  let geminiLimited :=
    match account.rateLimits.gemini with
    | some i => !i.isExpired
    | none => false
  if claudeLimited && geminiLimited then .rate_limited_all
  else if claudeLimited then .rate_limited_claude
  else if geminiLimited then .rate_limited_gemini
  else .available

/-- Spec-side restatement of the status derivation precedence table of
spec section 4.2, written from the specification words: both families
present-and-not-expired gives rate_limited_all, else claude only, else
gemini only, else available. Used to compare calculateAccountStatus
against the specified pure function of the two rate-limit infos. -/
def statusOfRateLimits (claude gemini : Option RateLimitInfo) : AccountStatus :=
  let claudeLimited := match claude with
    | some i => !i.isExpired
    | none => false
  let geminiLimited := match gemini with
    | some i => !i.isExpired
    | none => false
  if claudeLimited && geminiLimited then .rate_limited_all
  else if claudeLimited then .rate_limited_claude
  else if geminiLimited then .rate_limited_gemini
  else .available

/-- The rate-limit info built from an optional raw reset epoch
(accountsFile.ts lines 153-166). The source guards with JS truthiness,
so an epoch equal to 0 produces no info, exactly like an absent epoch. -/
def mkRateLimitInfo (resetOpt : Option Int) (now : Int) : Option RateLimitInfo :=
  match resetOpt with
  | none => none
  | some t =>
      if t = 0 then none
      else some { resetTime := t
                  timeUntilReset := max 0 (t - now)
                  isExpired := decide (t ≤ now) }

/-- Body of the processAccounts map callback (accountsFile.ts lines
152-186): builds one processed account from the raw record at a given
position. -/
def buildAccount (data : RawAccountsFile) (now : Int) (index : Nat)
    (raw : RawAccountData) : LocalAccount :=
  let claudeResetTime := raw.rateLimitResetTimes.bind (fun r => r.claude)
  let geminiResetTime := raw.rateLimitResetTimes.bind (fun r => r.gemini)
  let account : LocalAccount :=
    { email := raw.email
      projectId := raw.projectId
      managedProjectId := raw.managedProjectId
      addedAt := raw.addedAt
      lastUsed := raw.lastUsed
      isActive := decide ((index : Int) = data.activeIndex)
      activeForClaude := decide ((index : Int) =
        ((data.activeIndexByFamily.bind (fun f => f.claude)).getD data.activeIndex))
      activeForGemini := decide ((index : Int) =
        ((data.activeIndexByFamily.bind (fun f => f.gemini)).getD data.activeIndex))
      status := .available
      rateLimits := { claude := mkRateLimitInfo claudeResetTime now
                      gemini := mkRateLimitInfo geminiResetTime now } }
  { account with status := calculateAccountStatus account }

/-- processAccounts (accountsFile.ts lines 149-187): builds the processed
account list from a parsed registry file. -/
def processAccounts (data : RawAccountsFile) (now : Int) : List LocalAccount :=
  data.accounts.enum.map (fun p => buildAccount data now p.1 p.2)

/-- calculateDiffs (accountsFile.ts lines 199-220): keyed diff of two
processed snapshots. JSON.stringify inequality on two processed accounts
is modelled as structural inequality. -/
def calculateDiffs (previous current : List LocalAccount) : List AccountDiff :=
  let prevMap := toAccountMap previous
  let currMap := toAccountMap current
  let addUpdates := currMap.filterMap (fun p =>
    match jsGet prevMap p.1 with
    | none => some (AccountDiff.add p.1 p.2)
    | some prev => if prev = p.2 then none else some (AccountDiff.update p.1 p.2))
  let removes := prevMap.filterMap (fun p =>
    if jsHas currMap p.1 then none else some (AccountDiff.remove p.1))
  addUpdates ++ removes

/-- Application of one diff operation to an identifier-keyed state, as the
round-trip law describes it: an add inserts the carried account, an update
replaces the stored account by the full new state it carries, a remove
deletes the identifier. -/
def applyDiff (m : List (String × LocalAccount)) : AccountDiff →
    List (String × LocalAccount)
  | .add e a => jsSet m e a
  | .update e a => jsSet m e a
  | .remove e => jsDelete m e

/-- Application of a list of diff operations in order. -/
def applyDiffs (m : List (String × LocalAccount)) (ds : List AccountDiff) :
    List (String × LocalAccount) :=
  ds.foldl applyDiff m

/-! ### accountsFile.ts: status clock and registry load -/

/-- One timer update of a present rate-limit info at a given time
(accountsFile.ts lines 86-89 and 98-101): recompute timeUntilReset and
set isExpired when the remaining time reached zero. -/
def tickInfo (i : RateLimitInfo) (now : Int) : RateLimitInfo :=
  { resetTime := i.resetTime
    timeUntilReset := max 0 (i.resetTime - now)
    isExpired := decide (max 0 (i.resetTime - now) = 0) }

/-- Body of the updateRateLimitTimers loop for one account
(accountsFile.ts lines 84-113): update both family timers, emit a
rate_limit_cleared event for a family that flips from not-expired to
expired, then recompute the status. Returns the updated account, the
emitted events and the hasChanges contribution. -/
def tickAccount (now : Int) (account : LocalAccount) :
    LocalAccount × List ClearedEvent × Bool :=
  let claude' := account.rateLimits.claude.map (fun i => tickInfo i now)
  let claudeCleared :=
    match account.rateLimits.claude with
    | some i => !i.isExpired && (tickInfo i now).isExpired
    | none => false
  let gemini' := account.rateLimits.gemini.map (fun i => tickInfo i now)
  let geminiCleared :=
    match account.rateLimits.gemini with
    | some i => !i.isExpired && (tickInfo i now).isExpired
    | none => false
  let updated := { account with
    rateLimits := { claude := claude', gemini := gemini' } }
  let newStatus := calculateAccountStatus updated
  ({ updated with status := newStatus },
   (if claudeCleared then [{ email := account.email, family := .claude }]
    else []) ++
   (if geminiCleared then [{ email := account.email, family := .gemini }]
    else []),
   claudeCleared || geminiCleared || decide (newStatus ≠ updated.status))

/-- updateRateLimitTimers (accountsFile.ts lines 80-117): one status-clock
tick over the whole processed account list, collecting the updated list,
the emitted rate_limit_cleared events, and the hasChanges flag. -/
def updateRateLimitTimers (accounts : List LocalAccount) (now : Int) :
    List LocalAccount × List ClearedEvent × Bool :=
  accounts.foldl
    (fun acc a =>
      let r := tickAccount now a
      (acc.1 ++ [r.1], acc.2.1 ++ r.2.1, acc.2.2 || r.2.2))
    ([], [], false)

/-- A sequence of status-clock ticks applied to one account at the given
times, collecting every emitted rate_limit_cleared event. -/
def runTicks (a : LocalAccount) : List Int → LocalAccount × List ClearedEvent
  | [] => (a, [])
  | t :: ts =>
      let r := tickAccount t a
      let rest := runTicks r.1 ts
      (rest.1, r.2.1 ++ rest.2)

/-- Outcome of reading and parsing the registry file: the file is absent,
its content fails to parse, or it parses to a RawAccountsFile. -/
inductive RegistryRead where
  | missing
  | parseFailure
  | ok (data : RawAccountsFile)
deriving Repr

/-- An event emitted by loadAccountsFile to its subscribers. -/
inductive LoadEvent where
  | accountsLoaded (accounts : List LocalAccount)
  | accountsChanged (diffs : List AccountDiff)
deriving DecidableEq, Repr

/-- Whether a load event is an accounts_changed event. -/
def LoadEvent.isAccountsChanged : LoadEvent → Bool
  | .accountsChanged _ => true
  | _ => false

/-- The mutable state of the accounts file service that loadAccountsFile
reads and writes: the last parsed registry data and the processed
account list. -/
structure ServiceState where
  lastData : Option RawAccountsFile
  processedAccounts : List LocalAccount
deriving DecidableEq, Repr

/-- loadAccountsFile (accountsFile.ts lines 119-147) as a state
transition: on a missing file the state is cleared and accounts_loaded
with the empty list is emitted; on a parse failure (the JSON.parse throw
caught at line 144) nothing changes and nothing is emitted; on success
the state is rebuilt, accounts_changed is emitted when the diff is
nonempty, then accounts_loaded is emitted. -/
def loadAccountsFile (st : ServiceState) (read : RegistryRead) (now : Int) :
    ServiceState × List LoadEvent :=
  match read with
  | .missing =>
      ({ lastData := none, processedAccounts := [] },
       [.accountsLoaded []])
  | .parseFailure => (st, [])
  | .ok data =>
      let previousAccounts := st.processedAccounts
      let processed := processAccounts data now
      let diffs := calculateDiffs previousAccounts processed
      ({ lastData := some data, processedAccounts := processed },
       (if diffs.length > 0 then [.accountsChanged diffs] else [])
         ++ [.accountsLoaded processed])

/-! ### quotaService.ts: parse, aggregate, poll cycle

Remaining fractions are modelled as rationals; Math.round as rounding
half up; date parsing (new Date(s).getTime()) as an arbitrary function
parameter parseDateMs threaded through the definitions. -/

/-- Math.round: round half up. -/
def jsRound (q : ℚ) : Int := Int.floor (q + 1/2)

/-- JS String.prototype.includes on character lists. -/
def charsIncludes (needle : List Char) : List Char → Bool
  | [] => needle.isEmpty
  | c :: rest => needle.isPrefixOf (c :: rest) || charsIncludes needle rest

/-- JS s.includes(sub). -/
def strIncludes (s sub : String) : Bool :=
  charsIncludes sub.data s.data

/-- JS s.toLowerCase(), character by character. -/
def strToLower (s : String) : String :=
  String.mk (s.data.map Char.toLower)

/-- Per-model quota information (TS interface ModelQuotaInfo; displayName
is always assigned in the source, hence not optional here). -/
structure ModelQuotaInfo where
  modelName : String
  displayName : String
  remainingFraction : ℚ
  remainingPercent : Int
  resetTime : Option String
  resetTimeMs : Option Int
deriving DecidableEq, Repr

/-- The quotaInfo field of one model entry of the quota provider
response. -/
structure QuotaInfo where
  remainingFraction : Option ℚ
  resetTime : Option String
deriving DecidableEq, Repr

/-- One model entry of the quota provider response. -/
structure ModelData where
  displayName : Option String
  quotaInfo : Option QuotaInfo
deriving DecidableEq, Repr

/-- The quota provider response (TS interface FetchModelsResponse); the
models mapping is modelled as an entry list in Object.entries order. -/
structure FetchModelsResponse where
  models : Option (List (String × ModelData))
deriving DecidableEq, Repr

/-- Per-account quota record (TS interface AccountQuota). -/
structure AccountQuota where
  email : String
  projectId : Option String
  lastFetched : Int
  fetchError : Option String
  models : List ModelQuotaInfo
  claudeModels : List ModelQuotaInfo
  geminiModels : List ModelQuotaInfo
  claudeQuotaPercent : Option Int
  geminiQuotaPercent : Option Int
  claudeResetTime : Option Int
  geminiResetTime : Option Int
deriving DecidableEq, Repr

/-- parseQuotaResponse (quotaService.ts lines 157-182): one ModelQuotaInfo
per response entry carrying quotaInfo; a missing remainingFraction
defaults to 1.0; an empty resetTime string is falsy and becomes null. -/
def parseQuotaResponse (parseDateMs : String → Int)
    (data : FetchModelsResponse) : List ModelQuotaInfo :=
  (data.models.getD []).filterMap (fun p =>
    match p.2.quotaInfo with
    | none => none
    | some quotaInfo =>
        let remainingFraction := quotaInfo.remainingFraction.getD 1
        let resetTime : Option String :=
          match quotaInfo.resetTime with
          | some s => if s = "" then none else some s
          | none => none
        some { modelName := p.1
               displayName :=
                 match p.2.displayName with
                 | some s => if s = "" then p.1 else s
                 | none => p.1
               remainingFraction := remainingFraction
               remainingPercent := jsRound (remainingFraction * 100)
               resetTime := resetTime
               resetTimeMs := resetTime.map parseDateMs })

/-- JS Array.prototype.reduce with no initial value, specialised to the
minimum-remaining-percent callback of quotaService.ts lines 225-227 and
233-235: keeps the earlier model on ties, moves to a later model only on
a strictly smaller percent. -/
def reduceMinPercent (h : ModelQuotaInfo) (t : List ModelQuotaInfo) :
    ModelQuotaInfo :=
  t.foldl (fun acc m =>
    if m.remainingPercent < acc.remainingPercent then m else acc) h

/-- Outcome of the network stages of one per-account fetch: the token
exchange yielded no access token, every quota endpoint failed, or a
response body was obtained. -/
inductive FetchOutcome where
  | tokenFailure
  | fetchFailure
  | success (data : FetchModelsResponse)
deriving Repr

/-- Whether the outcome is one of the two failure modes. -/
def FetchOutcome.isFailure : FetchOutcome → Bool
  | .tokenFailure => true
  | .fetchFailure => true
  | .success _ => false

/-- The freshly initialised result record of fetchQuotaForAccount
(quotaService.ts lines 189-200). -/
def baseQuota (email : String) (projectId : Option String) (now : Int) :
    AccountQuota :=
  { email := email
    projectId := projectId
    lastFetched := now
    fetchError := none
    models := []
    claudeModels := []
    geminiModels := []
    claudeQuotaPercent := none
    geminiQuotaPercent := none
    claudeResetTime := none
    geminiResetTime := none }

/-- fetchQuotaForAccount (quotaService.ts lines 184-243) with the network
stages abstracted into an outcome: on a token or endpoint failure the
result records a fetchError and the cache map is returned unchanged
(the source reaches cache.accounts.set only on success); on success the
response is parsed, classified into families by case-insensitive
substring match, aggregated to the minimum remaining percent per family,
and the result is stored in the cache under the account email. -/
def fetchQuotaForAccount (parseDateMs : String → Int)
    (cacheAccounts : List (String × AccountQuota)) (email : String)
    (projectId : Option String) (now : Int) (outcome : FetchOutcome) :
    AccountQuota × List (String × AccountQuota) :=
  let result := baseQuota email projectId now
  match outcome with
  | .tokenFailure =>
      ({ result with fetchError := some "Failed to refresh access token" },
       cacheAccounts)
  | .fetchFailure =>
      ({ result with fetchError := some "Failed to fetch models from API" },
       cacheAccounts)
  | .success data =>
      let models := parseQuotaResponse parseDateMs data
      let claudeModels := models.filter (fun m =>
        strIncludes (strToLower m.modelName) "claude" ||
        strIncludes (strToLower m.modelName) "anthropic")
      let geminiModels := models.filter (fun m =>
        strIncludes (strToLower m.modelName) "gemini")
      let result := { result with
        models := models
        claudeModels := claudeModels
        geminiModels := geminiModels }
      let result :=
        match claudeModels with
        | [] => result
        | h :: t =>
            let minClaude := reduceMinPercent h t
            { result with
              claudeQuotaPercent := some minClaude.remainingPercent
              claudeResetTime := minClaude.resetTimeMs }
      let result :=
        match geminiModels with
        | [] => result
        | h :: t =>
            let minGemini := reduceMinPercent h t
            { result with
              geminiQuotaPercent := some minGemini.remainingPercent
              geminiResetTime := minGemini.resetTimeMs }
      (result, jsSet cacheAccounts email result)

/-- One entry of the account list handed to fetchAllQuotas. -/
structure QuotaFetchRequest where
  email : String
  refreshToken : String
  projectId : Option String
deriving DecidableEq, Repr

/-- The quota cache (TS interface QuotaCache). -/
structure QuotaCache where
  accounts : List (String × AccountQuota)
  lastFullFetch : Int
deriving DecidableEq, Repr

/-- Outcome of one loop iteration of fetchAllQuotas: either
fetchQuotaForAccount ran to completion with some fetch outcome, or it
threw and the catch block built a fallback error record. -/
inductive CycleOutcome where
  | ran (o : FetchOutcome)
  | threw (msg : String)
deriving Repr

/-- One loop iteration of fetchAllQuotas (quotaService.ts lines 254-281):
run the per-account fetch and push its result, or push the catch block's
fallback error record leaving the cache map untouched. -/
def fetchAllQuotasStep (parseDateMs : String → Int) (now : Int)
    (acc : List AccountQuota × List (String × AccountQuota))
    (req : QuotaFetchRequest × CycleOutcome) :
    List AccountQuota × List (String × AccountQuota) :=
  match req.2 with
  | .ran o =>
      let r := fetchQuotaForAccount parseDateMs acc.2 req.1.email
        req.1.projectId now o
      (acc.1 ++ [r.1], r.2)
  | .threw msg =>
      (acc.1 ++ [{ baseQuota req.1.email req.1.projectId now with
                    fetchError := some msg }], acc.2)

/-- fetchAllQuotas (quotaService.ts lines 245-288): serial loop over the
accounts, pushing one result per account; a throw is caught and recorded
as a fallback error result without touching the cache map; lastFullFetch
is stamped at the end of the cycle. -/
def fetchAllQuotas (parseDateMs : String → Int) (cache : QuotaCache)
    (reqs : List (QuotaFetchRequest × CycleOutcome)) (now : Int) :
    List AccountQuota × QuotaCache :=
  let step := reqs.foldl (fetchAllQuotasStep parseDateMs now) ([], cache.accounts)
  (step.1, { accounts := step.2, lastFullFetch := now })

/-! ### Lemmas about the JavaScript Map model -/

theorem jsGet_jsSet {α : Type} (m : List (String × α)) (k : String) (v : α)
    (e : String) :
    jsGet (jsSet m k v) e = if k = e then some v else jsGet m e := by
  induction m with
  | nil => simp [jsSet, jsGet]
  | cons p rest ih =>
      by_cases hpk : p.1 = k
      · by_cases hke : k = e <;> simp [jsSet, jsGet, hpk, hke]
      · by_cases hpe : p.1 = e
        · have hke : ¬ k = e := fun h => hpk (h ▸ hpe)
          have hek : ¬ e = k := fun h => hke h.symm
          simp [jsSet, jsGet, hpk, hpe, hke, hek]
        · simp [jsSet, jsGet, hpk, hpe, ih]

theorem jsGet_jsDelete {α : Type} (m : List (String × α)) (k e : String) :
    jsGet (jsDelete m k) e = if k = e then none else jsGet m e := by
  induction m with
  | nil => simp [jsDelete, jsGet]
  | cons p rest ih =>
      by_cases hke : k = e
      · subst hke
        by_cases hpk : p.1 = k <;>
          simp_all [jsDelete, jsGet, List.filter_cons]
      · by_cases hpk : p.1 = k
        · have hpe : ¬ p.1 = e := fun h => hke (hpk ▸ h)
          simp_all [jsDelete, jsGet, List.filter_cons]
        · by_cases hpe : p.1 = e <;>
            simp_all [jsDelete, jsGet, List.filter_cons]

theorem jsHas_eq_isSome {α : Type} (m : List (String × α)) (k : String) :
    jsHas m k = (jsGet m k).isSome := by
  induction m with
  | nil => simp [jsHas, jsGet]
  | cons p rest ih =>
      by_cases hpk : p.1 = k <;> simp [jsHas, jsGet, hpk] at ih ⊢ <;>
        exact ih

theorem mem_keys_jsSet {α : Type} (m : List (String × α)) (k : String)
    (v : α) (e : String) :
    e ∈ (jsSet m k v).map Prod.fst ↔ e ∈ m.map Prod.fst ∨ e = k := by
  induction m with
  | nil => simp [jsSet]
  | cons p rest ih =>
      by_cases hpk : p.1 = k
      · subst hpk; simp [jsSet]; tauto
      · simp [jsSet, hpk, ih]; tauto

theorem keysNodup_jsSet {α : Type} (m : List (String × α)) (k : String)
    (v : α) (h : keysNodup m) : keysNodup (jsSet m k v) := by
  induction m with
  | nil => simp [jsSet, keysNodup]
  | cons p rest ih =>
      unfold keysNodup at h ⊢
      simp only [List.map_cons, List.nodup_cons] at h
      by_cases hpk : p.1 = k
      · subst hpk
        simp [jsSet, List.nodup_cons, h.1, h.2]
      · have ih' := ih h.2
        unfold keysNodup at ih'
        simp only [jsSet, if_neg hpk, List.map_cons, List.nodup_cons]
        refine ⟨fun hmem => ?_, ih'⟩
        rcases (mem_keys_jsSet rest k v p.1).mp hmem with hm | hm
        · exact h.1 hm
        · exact hpk hm

theorem keysNodup_jsDelete {α : Type} (m : List (String × α)) (k : String)
    (h : keysNodup m) : keysNodup (jsDelete m k) := by
  unfold keysNodup at h ⊢
  unfold jsDelete
  exact h.sublist (List.Sublist.map Prod.fst (List.filter_sublist m))

theorem keysNodup_toAccountMap (accounts : List LocalAccount) :
    keysNodup (toAccountMap accounts) := by
  have general : ∀ (l : List LocalAccount) (m : List (String × LocalAccount)),
      keysNodup m →
      keysNodup (l.foldl (fun m a => jsSet m a.email a) m) := by
    intro l
    induction l with
    | nil => intro m h; exact h
    | cons a rest ih =>
        intro m h
        exact ih _ (keysNodup_jsSet m a.email a h)
  exact general accounts [] (by simp [keysNodup])

theorem mem_iff_jsGet {α : Type} (m : List (String × α)) (k : String)
    (v : α) (h : keysNodup m) : (k, v) ∈ m ↔ jsGet m k = some v := by
  induction m with
  | nil => simp [jsGet]
  | cons p rest ih =>
      unfold keysNodup at h
      simp only [List.map_cons, List.nodup_cons] at h
      have ih' := ih h.2
      obtain ⟨pk, pv⟩ := p
      simp only at h
      by_cases hpk : pk = k
      · subst hpk
        constructor
        · intro hmem
          rcases List.mem_cons.mp hmem with hh | hh
          · injection hh with h1 h2
            subst h2
            simp [jsGet]
          · exact absurd (List.mem_map_of_mem Prod.fst hh) h.1
        · intro hv
          have hsome : some pv = some v := by simpa [jsGet] using hv
          injection hsome with h2
          subst h2
          exact List.mem_cons_self _ _
      · constructor
        · intro hmem
          rcases List.mem_cons.mp hmem with hh | hh
          · injection hh with h1 h2
            exact absurd h1.symm hpk
          · simpa [jsGet, hpk] using ih'.mp hh
        · intro hv
          refine List.mem_cons.mpr (Or.inr (ih'.mpr ?_))
          simpa [jsGet, hpk] using hv

theorem jsGet_foldl_set (accounts : List LocalAccount)
    (m : List (String × LocalAccount)) (e : String) :
    jsGet (accounts.foldl (fun m a => jsSet m a.email a) m) e =
      ((accounts.filter (fun a => decide (a.email = e))).getLast?).elim
        (jsGet m e) some := by
  induction accounts generalizing m with
  | nil => simp
  | cons a rest ih =>
      simp only [List.foldl_cons, List.filter_cons]
      by_cases hae : a.email = e
      · rw [if_pos (by simp [hae]), ih]
        rcases hfilter : rest.filter (fun a => decide (a.email = e)) with _ | ⟨b, bs⟩
        · rw [hfilter]
          simp [jsGet_jsSet, hae]
        · rw [hfilter, List.getLast?_cons_cons]
          rcases hlast : (b :: bs).getLast? with _ | c
          · exact absurd (List.getLast?_eq_none_iff.mp hlast) (by simp)
          · rfl
      · rw [if_neg (by simp [hae]), ih]
        rcases hlast : (rest.filter (fun a => decide (a.email = e))).getLast? with
          _ | b
        · rw [hlast]
          simp [jsGet_jsSet, hae]
        · rw [hlast]
          simp

theorem jsGet_toAccountMap (accounts : List LocalAccount) (e : String) :
    jsGet (toAccountMap accounts) e =
      (accounts.filter (fun a => decide (a.email = e))).getLast? := by
  rw [toAccountMap, jsGet_foldl_set]
  rcases hlast : (accounts.filter (fun a => decide (a.email = e))).getLast? with
    _ | b <;> simp [hlast, jsGet]

theorem jsGet_eq_none_of_not_mem_keys {α : Type} (m : List (String × α))
    (k : String) (h : k ∉ m.map Prod.fst) : jsGet m k = none := by
  induction m with
  | nil => rfl
  | cons p rest ih =>
      simp only [List.map_cons, List.mem_cons, not_or] at h
      have hpk : ¬ p.1 = k := fun hh => h.1 hh.symm
      simp [jsGet, hpk, ih h.2]

/-- Filtering a keyed filterMap down to one key: with pairwise-distinct
keys, the surviving operations are exactly those produced from the entry
stored at that key. -/
theorem filterMap_keyed {α : Type} (l : List (String × α))
    (f : String × α → Option AccountDiff) (e : String)
    (hnd : keysNodup l)
    (hf : ∀ p d, f p = some d → AccountDiff.email d = p.1) :
    (l.filterMap f).filter (fun d => decide (AccountDiff.email d = e)) =
      ((jsGet l e).bind (fun v => f (e, v))).toList := by
  induction l with
  | nil => rfl
  | cons p rest ih =>
      unfold keysNodup at hnd
      simp only [List.map_cons, List.nodup_cons] at hnd
      have ih' := ih hnd.2
      rw [List.filterMap_cons]
      rcases hfp : f p with _ | d
      · by_cases hpe : p.1 = e
        · have hrest : jsGet rest e = none :=
            jsGet_eq_none_of_not_mem_keys rest e (hpe ▸ hnd.1)
          have hpair : (e, p.2) = p := by
            obtain ⟨p1, p2⟩ := p
            simp only at hpe ⊢
            rw [hpe]
          rw [ih', jsGet, if_pos hpe, hrest]
          simp [hpair, hfp]
        · rw [ih', jsGet, if_neg hpe]
      · have hde : AccountDiff.email d = p.1 := hf p d hfp
        by_cases hpe : p.1 = e
        · have hrest : jsGet rest e = none :=
            jsGet_eq_none_of_not_mem_keys rest e (hpe ▸ hnd.1)
          have hpair : (e, p.2) = p := by
            obtain ⟨p1, p2⟩ := p
            simp only at hpe ⊢
            rw [hpe]
          rw [List.filter_cons, if_pos (by simp [hde, hpe]), ih', jsGet,
            if_pos hpe, hrest]
          simp [hpair, hfp]
        · have hdne : ¬ AccountDiff.email d = e := fun hh => hpe (hde ▸ hh)
          rw [List.filter_cons, if_neg (by simp [hdne]), ih', jsGet, if_neg hpe]

/-- The net effect of one diff operation on the value stored at its own
key. -/
def diffEffect (cur : Option LocalAccount) : AccountDiff → Option LocalAccount
  | .add _ a => some a
  | .update _ a => some a
  | .remove _ => none

theorem jsGet_applyDiff (m : List (String × LocalAccount)) (d : AccountDiff)
    (e : String) :
    jsGet (applyDiff m d) e =
      if AccountDiff.email d = e then diffEffect (jsGet m e) d
      else jsGet m e := by
  cases d with
  | add de a => rw [applyDiff]; rw [jsGet_jsSet]; rfl
  | update de a => rw [applyDiff]; rw [jsGet_jsSet]; rfl
  | remove de => rw [applyDiff]; rw [jsGet_jsDelete]; rfl

theorem jsGet_applyDiffs (ds : List AccountDiff)
    (m : List (String × LocalAccount)) (e : String) :
    jsGet (applyDiffs m ds) e =
      (ds.filter (fun d => decide (AccountDiff.email d = e))).foldl
        diffEffect (jsGet m e) := by
  induction ds generalizing m with
  | nil => rfl
  | cons d rest ih =>
      rw [applyDiffs, List.foldl_cons]
      have step : jsGet (applyDiff m d) e =
          if AccountDiff.email d = e then diffEffect (jsGet m e) d
          else jsGet m e := jsGet_applyDiff m d e
      by_cases hde : AccountDiff.email d = e
      · rw [List.filter_cons, if_pos (by simp [hde]), List.foldl_cons]
        have := ih (applyDiff m d)
        rw [applyDiffs] at this
        rw [this, step, if_pos hde]
      · rw [List.filter_cons, if_neg (by simp [hde])]
        have := ih (applyDiff m d)
        rw [applyDiffs] at this
        rw [this, step, if_neg hde]

theorem addUpdate_email (prevMap : List (String × LocalAccount)) :
    ∀ (p : String × LocalAccount) (d : AccountDiff),
      (match jsGet prevMap p.1 with
       | none => some (AccountDiff.add p.1 p.2)
       | some prev => if prev = p.2 then none
                      else some (AccountDiff.update p.1 p.2)) = some d →
      AccountDiff.email d = p.1 := by
  intro p d hd
  rcases hg : jsGet prevMap p.1 with _ | q
  · rw [hg] at hd
    simp only [Option.some.injEq] at hd
    rw [← hd]
    rfl
  · rw [hg] at hd
    by_cases hq : q = p.2
    · simp [hq] at hd
    · simp only [if_neg hq, Option.some.injEq] at hd
      rw [← hd]
      rfl

theorem remove_email (currMap : List (String × LocalAccount)) :
    ∀ (p : String × LocalAccount) (d : AccountDiff),
      (if jsHas currMap p.1 then none
       else some (AccountDiff.remove p.1)) = some d →
      AccountDiff.email d = p.1 := by
  intro p d hd
  by_cases hh : jsHas currMap p.1
  · simp [hh] at hd
  · simp only [if_neg hh, Option.some.injEq] at hd
    rw [← hd]
    rfl

theorem roundtrip_maps (prevMap currMap : List (String × LocalAccount))
    (hp : keysNodup prevMap) (hc : keysNodup currMap) (e : String) :
    jsGet (applyDiffs prevMap
      (currMap.filterMap (fun p =>
        match jsGet prevMap p.1 with
        | none => some (AccountDiff.add p.1 p.2)
        | some prev => if prev = p.2 then none
                       else some (AccountDiff.update p.1 p.2)) ++
       prevMap.filterMap (fun p =>
        if jsHas currMap p.1 then none
        else some (AccountDiff.remove p.1)))) e
      = jsGet currMap e := by
  rw [jsGet_applyDiffs, List.filter_append,
    filterMap_keyed currMap _ e hc (addUpdate_email prevMap),
    filterMap_keyed prevMap _ e hp (remove_email currMap)]
  rcases hcg : jsGet currMap e with _ | v
  · rcases hpg : jsGet prevMap e with _ | p
    · simp [hcg, hpg]
    · simp [hcg, hpg, jsHas_eq_isSome, diffEffect]
  · rcases hpg : jsGet prevMap e with _ | p
    · simp [hcg, hpg, jsHas_eq_isSome, diffEffect]
    · by_cases hpv : p = v
      · simp [hcg, hpg, hpv, jsHas_eq_isSome, diffEffect]
      · simp [hcg, hpg, hpv, jsHas_eq_isSome, diffEffect]

theorem keysNodup_applyDiff (m : List (String × LocalAccount))
    (d : AccountDiff) (h : keysNodup m) : keysNodup (applyDiff m d) := by
  cases d with
  | add e a => exact keysNodup_jsSet m e a h
  | update e a => exact keysNodup_jsSet m e a h
  | remove e => exact keysNodup_jsDelete m e h

theorem keysNodup_applyDiffs (ds : List AccountDiff)
    (m : List (String × LocalAccount)) (h : keysNodup m) :
    keysNodup (applyDiffs m ds) := by
  induction ds generalizing m with
  | nil => exact h
  | cons d rest ih =>
      have step := keysNodup_applyDiff m d h
      have := ih (applyDiff m d) step
      rw [applyDiffs] at this ⊢
      exact this

theorem jsSet_append_of_not_mem {α : Type} (m : List (String × α))
    (k : String) (v : α) (h : k ∉ m.map Prod.fst) :
    jsSet m k v = m ++ [(k, v)] := by
  induction m with
  | nil => rfl
  | cons p rest ih =>
      simp only [List.map_cons, List.mem_cons, not_or] at h
      have hpk : ¬ p.1 = k := fun hh => h.1 hh.symm
      simp [jsSet, hpk, ih h.2]

theorem foldl_jsSet_append (l : List LocalAccount)
    (m : List (String × LocalAccount))
    (hdisj : ∀ a ∈ l, a.email ∉ m.map Prod.fst)
    (hnd : (l.map (fun a => a.email)).Nodup) :
    l.foldl (fun m a => jsSet m a.email a) m =
      m ++ l.map (fun a => (a.email, a)) := by
  induction l generalizing m with
  | nil => simp
  | cons a rest ih =>
      simp only [List.map_cons, List.nodup_cons] at hnd
      simp only [List.foldl_cons, List.map_cons]
      rw [jsSet_append_of_not_mem m a.email a (hdisj a (by simp))]
      rw [ih]
      · simp
      · intro b hb
        simp only [List.map_append, List.mem_append, List.map_cons,
          List.map_nil, List.mem_singleton, not_or]
        refine ⟨hdisj b (List.mem_cons_of_mem a hb), fun hba => ?_⟩
        exact hnd.1 (hba ▸ List.mem_map_of_mem (fun a => a.email) hb)
      · exact hnd.2

theorem toAccountMap_eq_map (current : List LocalAccount)
    (hnd : (current.map (fun a => a.email)).Nodup) :
    toAccountMap current = current.map (fun a => (a.email, a)) := by
  rw [toAccountMap, foldl_jsSet_append current [] (by simp) hnd]
  simp

theorem nodup_of_keysNodup {α : Type} (m : List (String × α))
    (h : keysNodup m) : m.Nodup := by
  unfold keysNodup at h
  exact List.Nodup.of_map Prod.fst h

theorem toList_length_le_one {α : Type} (o : Option α) :
    o.toList.length ≤ 1 := by
  cases o <;> simp

/-! ### Claim theorems: the diff engine -/

/-- C3: the diff is idempotent. For every account-state snapshot S,
diff(S, S) is the empty list: no add, update, or remove event is emitted
when previous and current are equal, with value-based equality (two
records both lacking a rate-limit info for a family are equal on that
field, since both are the absent option value). -/
theorem calculateDiffs_self_eq_nil (S : List LocalAccount) :
    calculateDiffs S S = [] := by
  have hnd := keysNodup_toAccountMap S
  simp only [calculateDiffs]
  rw [List.append_eq_nil]
  constructor
  · rw [List.filterMap_eq_nil_iff]
    intro p hp
    have hget : jsGet (toAccountMap S) p.1 = some p.2 :=
      (mem_iff_jsGet (toAccountMap S) p.1 p.2 hnd).mp (by rw [Prod.mk.eta]; exact hp)
    rw [hget]
    simp
  · rw [List.filterMap_eq_nil_iff]
    intro p hp
    have hget : jsGet (toAccountMap S) p.1 = some p.2 :=
      (mem_iff_jsGet (toAccountMap S) p.1 p.2 hnd).mp (by rw [Prod.mk.eta]; exact hp)
    rw [jsHas_eq_isSome, hget]
    simp

/-- C2: the diff is complete (round-trip law). Applying the emitted
operations to the previous identifier-keyed state — inserting the account
carried by each add, replacing the stored account by the full new state
carried by each update (each update carries the entire new account), and
deleting the identifier of each remove — reproduces the current
identifier-keyed state exactly: the two maps agree on every identifier,
and when the current snapshot has pairwise-distinct emails the applied
result is a permutation of the current snapshot itself keyed by email. -/
theorem calculateDiffs_roundtrip (previous current : List LocalAccount) :
    (∀ e, jsGet (applyDiffs (toAccountMap previous)
          (calculateDiffs previous current)) e
        = jsGet (toAccountMap current) e)
    ∧ ((current.map (fun a => a.email)).Nodup →
        List.Perm
          (applyDiffs (toAccountMap previous) (calculateDiffs previous current))
          (current.map (fun a => (a.email, a)))) := by
  have hp := keysNodup_toAccountMap previous
  have hc := keysNodup_toAccountMap current
  have hext : ∀ e, jsGet (applyDiffs (toAccountMap previous)
      (calculateDiffs previous current)) e = jsGet (toAccountMap current) e :=
    fun e => roundtrip_maps (toAccountMap previous) (toAccountMap current) hp hc e
  refine ⟨hext, fun hnd => ?_⟩
  have hka : keysNodup (applyDiffs (toAccountMap previous)
      (calculateDiffs previous current)) :=
    keysNodup_applyDiffs _ _ hp
  have hmap : toAccountMap current = current.map (fun a => (a.email, a)) :=
    toAccountMap_eq_map current hnd
  have hkc : keysNodup (current.map (fun a => (a.email, a))) := by
    rw [← hmap]; exact hc
  refine (List.perm_ext_iff_of_nodup (nodup_of_keysNodup _ hka)
    (nodup_of_keysNodup _ hkc)).mpr ?_
  rintro ⟨k, v⟩
  rw [mem_iff_jsGet _ _ _ hka, ← hmap, mem_iff_jsGet _ _ _ hc, hext k]

/-- C10: for every pair of snapshots the diff emits at most one change
event per identifier; snapshots are collapsed into identifier-keyed maps
before comparison, so only the last record with a given email
participates (earlier duplicates are ignored) and the diff depends on the
snapshots only through their identifier-keyed maps. -/
theorem calculateDiffs_per_identifier (previous current : List LocalAccount)
    (e : String) :
    ((calculateDiffs previous current).filter
        (fun d => decide (AccountDiff.email d = e))).length ≤ 1
    ∧ jsGet (toAccountMap current) e =
        (current.filter (fun a => decide (a.email = e))).getLast?
    ∧ (∀ previous2 current2 : List LocalAccount,
        toAccountMap previous = toAccountMap previous2 →
        toAccountMap current = toAccountMap current2 →
        calculateDiffs previous current = calculateDiffs previous2 current2) := by
  have hp := keysNodup_toAccountMap previous
  have hc := keysNodup_toAccountMap current
  refine ⟨?_, jsGet_toAccountMap current e, ?_⟩
  · simp only [calculateDiffs]
    rw [List.filter_append, List.length_append,
      filterMap_keyed (toAccountMap current) _ e hc
        (addUpdate_email (toAccountMap previous)),
      filterMap_keyed (toAccountMap previous) _ e hp
        (remove_email (toAccountMap current))]
    rcases hcg : jsGet (toAccountMap current) e with _ | v
    · simpa using toList_length_le_one _
    · rcases hpg : jsGet (toAccountMap previous) e with _ | p
      · simpa using toList_length_le_one _
      · have hhas : jsHas (toAccountMap current) e = true := by
          rw [jsHas_eq_isSome]
          simp [hcg]
        simp only [Option.some_bind, hhas, if_true]
        simpa [hhas] using toList_length_le_one
          ((some v).bind (fun p =>
            match jsGet (toAccountMap previous) (e, p).1 with
            | none => some (AccountDiff.add (e, p).1 (e, p).2)
            | some prev => if prev = (e, p).2 then none
                           else some (AccountDiff.update (e, p).1 (e, p).2)))
  · intro previous2 current2 h1 h2
    simp only [calculateDiffs, h1, h2]

/-- A concrete processed account, rate-limited for claude. -/
def exAccountA : LocalAccount :=
  { email := "a@x", projectId := none, managedProjectId := none,
    addedAt := 0, lastUsed := 0, isActive := true,
    activeForClaude := true, activeForGemini := true,
    status := .rate_limited_claude,
    rateLimits := { claude := some { resetTime := 60000,
                                     timeUntilReset := 60000,
                                     isExpired := false },
                    gemini := none } }

/-- A concrete available processed account. -/
def exAccountB : LocalAccount :=
  { email := "b@x", projectId := some "p", managedProjectId := none,
    addedAt := 1, lastUsed := 2, isActive := false,
    activeForClaude := false, activeForGemini := false,
    status := .available,
    rateLimits := { claude := none, gemini := none } }

/-- Witness for C2 at a concrete pair of snapshots. -/
theorem calculateDiffs_roundtrip_witness :
    jsGet (applyDiffs (toAccountMap [exAccountA])
        (calculateDiffs [exAccountA] [exAccountB])) "b@x"
      = jsGet (toAccountMap [exAccountB]) "b@x"
    ∧ List.Perm
        (applyDiffs (toAccountMap [exAccountA])
          (calculateDiffs [exAccountA] [exAccountB]))
        ([exAccountB].map (fun a => (a.email, a))) :=
  ⟨(calculateDiffs_roundtrip [exAccountA] [exAccountB]).1 "b@x",
   (calculateDiffs_roundtrip [exAccountA] [exAccountB]).2 (by decide)⟩

/-- Witness for C10 at a concrete pair of snapshots, including a
duplicate-collapsing pair of previous snapshots. -/
theorem calculateDiffs_per_identifier_witness :
    ((calculateDiffs [exAccountA] [exAccountA, exAccountB]).filter
        (fun d => decide (AccountDiff.email d = "a@x"))).length ≤ 1
    ∧ jsGet (toAccountMap [exAccountA, exAccountB]) "a@x"
        = ([exAccountA, exAccountB].filter
            (fun a => decide (a.email = "a@x"))).getLast?
    ∧ calculateDiffs [exAccountA] [exAccountA, exAccountB]
        = calculateDiffs [exAccountA, exAccountA] [exAccountA, exAccountB] :=
  ⟨(calculateDiffs_per_identifier [exAccountA] [exAccountA, exAccountB] "a@x").1,
   (calculateDiffs_per_identifier [exAccountA] [exAccountA, exAccountB] "a@x").2.1,
   (calculateDiffs_per_identifier [exAccountA] [exAccountA, exAccountB] "a@x").2.2
     [exAccountA, exAccountA] [exAccountA, exAccountB] (by decide) rfl⟩

/-! ### Claim theorems: status derivation and registry load -/

theorem calculateAccountStatus_set_status (a : LocalAccount)
    (s : AccountStatus) :
    calculateAccountStatus { a with status := s } = calculateAccountStatus a :=
  rfl

theorem buildAccount_status (data : RawAccountsFile) (now : Int)
    (index : Nat) (raw : RawAccountData) :
    (buildAccount data now index raw).status
      = calculateAccountStatus (buildAccount data now index raw) := rfl

theorem tickAccount_status (now : Int) (a : LocalAccount) :
    ((tickAccount now a).1).status
      = calculateAccountStatus (tickAccount now a).1 := rfl

/-- C1: the derived status is a pure function of the two rate-limit
infos with the exact precedence of the section 4.2 table (restated by
statusOfRateLimits): both families present and not expired gives
rate_limited_all, else claude only, else gemini only, else available.
The builder and the status clock both store exactly the value this
function re-derives from the two rate-limit infos alone. -/
theorem status_pure_function :
    (∀ a : LocalAccount, calculateAccountStatus a
        = statusOfRateLimits a.rateLimits.claude a.rateLimits.gemini)
    ∧ (∀ (data : RawAccountsFile) (now : Int),
        ∀ acc ∈ processAccounts data now,
          acc.status = calculateAccountStatus acc)
    ∧ (∀ (now : Int) (a : LocalAccount),
        ((tickAccount now a).1).status
          = calculateAccountStatus (tickAccount now a).1) := by
  refine ⟨fun a => rfl, ?_, fun now a => tickAccount_status now a⟩
  intro data now acc hacc
  obtain ⟨p, hp, rfl⟩ := List.mem_map.mp hacc
  exact buildAccount_status data now p.1 p.2

/-- A concrete raw account record with a claude reset epoch. -/
def exRaw : RawAccountData :=
  { email := "a@x", refreshToken := "r", projectId := none,
    managedProjectId := none, addedAt := 0, lastUsed := 0,
    rateLimitResetTimes := some { claude := some 50, gemini := none } }

/-- A concrete registry file with a single account. -/
def exFile : RawAccountsFile :=
  { version := 1, accounts := [exRaw], activeIndex := 0,
    activeIndexByFamily := none }

/-- Witness for C1 at a concrete registry file. -/
theorem status_pure_function_witness :
    (buildAccount exFile 100 0 exRaw).status
      = calculateAccountStatus (buildAccount exFile 100 0 exRaw) :=
  status_pure_function.2.1 exFile 100 (buildAccount exFile 100 0 exRaw)
    (by decide)

/-- C4: a load whose content fails to parse leaves the service state
(processedAccounts and lastData) completely unchanged and emits no
accounts_loaded or accounts_changed event. -/
theorem loadAccountsFile_parseFailure (st : ServiceState) (now : Int) :
    loadAccountsFile st .parseFailure now = (st, []) := rfl

/-- C5 counterexample: with one previously loaded account, a load with
the registry file absent emits only an accounts_loaded event carrying
the empty list; no accounts_changed event, and hence no remove
operations for the previously present identifier, is emitted. -/
theorem loadAccountsFile_missing_counterexample :
    (loadAccountsFile { lastData := none, processedAccounts := [exAccountA] }
        .missing 0).2 = [LoadEvent.accountsLoaded []]
    ∧ ((loadAccountsFile { lastData := none, processedAccounts := [exAccountA] }
        .missing 0).2.filter LoadEvent.isAccountsChanged) = [] := by
  exact ⟨rfl, rfl⟩

/-- C5 (amended): a missing registry file is treated as an explicit empty
state rather than an error: the processed account list becomes empty,
the stored raw data is cleared, and a single accounts_loaded event
carrying the empty list (a full empty snapshot) is emitted to
subscribers unconditionally; no remove events are emitted for the
previously present identifiers. -/
theorem loadAccountsFile_missing (st : ServiceState) (now : Int) :
    loadAccountsFile st .missing now
      = ({ lastData := none, processedAccounts := [] },
         [LoadEvent.accountsLoaded []]) := rfl

theorem calcStatus_claude_none (a : LocalAccount)
    (h : a.rateLimits.claude = none) :
    calculateAccountStatus a ≠ .rate_limited_claude
    ∧ calculateAccountStatus a ≠ .rate_limited_all := by
  rcases hg : a.rateLimits.gemini with _ | i
  · simp [calculateAccountStatus, h, hg]
  · by_cases he : i.isExpired <;> simp [calculateAccountStatus, h, hg, he]

theorem calcStatus_gemini_none (a : LocalAccount)
    (h : a.rateLimits.gemini = none) :
    calculateAccountStatus a ≠ .rate_limited_gemini
    ∧ calculateAccountStatus a ≠ .rate_limited_all := by
  rcases hc : a.rateLimits.claude with _ | i
  · simp [calculateAccountStatus, h, hc]
  · by_cases he : i.isExpired <;> simp [calculateAccountStatus, h, hc, he]

/-- C9 (implicit): a family reset epoch equal to 0 is tested for JS
truthiness, not presence, so the builder produces no rate-limit info for
that family; the built account is identical to the one built from the
same record with that epoch absent, and the family is treated as not
rate-limited in status derivation. -/
theorem buildAccount_zero_epoch (data : RawAccountsFile) (now : Int)
    (index : Nat) (raw : RawAccountData) :
    (raw.rateLimitResetTimes.bind (fun r => r.claude) = some 0 →
      (buildAccount data now index raw).rateLimits.claude = none
      ∧ buildAccount data now index raw
          = buildAccount data now index
            { raw with rateLimitResetTimes :=
                raw.rateLimitResetTimes.map (fun r => { r with claude := none }) }
      ∧ (buildAccount data now index raw).status ≠ .rate_limited_claude
      ∧ (buildAccount data now index raw).status ≠ .rate_limited_all)
    ∧ (raw.rateLimitResetTimes.bind (fun r => r.gemini) = some 0 →
      (buildAccount data now index raw).rateLimits.gemini = none
      ∧ buildAccount data now index raw
          = buildAccount data now index
            { raw with rateLimitResetTimes :=
                raw.rateLimitResetTimes.map (fun r => { r with gemini := none }) }
      ∧ (buildAccount data now index raw).status ≠ .rate_limited_gemini
      ∧ (buildAccount data now index raw).status ≠ .rate_limited_all) := by
  constructor
  · intro h
    rcases hr : raw.rateLimitResetTimes with _ | r
    · rw [hr] at h; simp at h
    · rw [hr] at h
      simp only [Option.some_bind] at h
      have hfield : (buildAccount data now index raw).rateLimits.claude = none := by
        simp [buildAccount, hr, h, mkRateLimitInfo]
      refine ⟨hfield, ?_, ?_⟩
      · simp [buildAccount, hr, h, mkRateLimitInfo]
      · rw [buildAccount_status]
        exact calcStatus_claude_none _ hfield
  · intro h
    rcases hr : raw.rateLimitResetTimes with _ | r
    · rw [hr] at h; simp at h
    · rw [hr] at h
      simp only [Option.some_bind] at h
      have hfield : (buildAccount data now index raw).rateLimits.gemini = none := by
        simp [buildAccount, hr, h, mkRateLimitInfo]
      refine ⟨hfield, ?_, ?_⟩
      · simp [buildAccount, hr, h, mkRateLimitInfo]
      · rw [buildAccount_status]
        exact calcStatus_gemini_none _ hfield

/-- A concrete raw account record whose claude reset epoch is 0. -/
def exRawZero : RawAccountData :=
  { email := "z@x", refreshToken := "r", projectId := none,
    managedProjectId := none, addedAt := 0, lastUsed := 0,
    rateLimitResetTimes := some { claude := some 0, gemini := some 70 } }

/-- Witness for C9 at a concrete raw record with a zero claude epoch. -/
theorem buildAccount_zero_epoch_witness :
    (buildAccount exFile 100 0 exRawZero).rateLimits.claude = none
    ∧ buildAccount exFile 100 0 exRawZero
        = buildAccount exFile 100 0
          { exRawZero with rateLimitResetTimes :=
              (exRawZero.rateLimitResetTimes.map
                (fun r => { r with claude := none })) }
    ∧ (buildAccount exFile 100 0 exRawZero).status ≠ .rate_limited_claude
    ∧ (buildAccount exFile 100 0 exRawZero).status ≠ .rate_limited_all :=
  (buildAccount_zero_epoch exFile 100 0 exRawZero).1 rfl

/-! ### Claim theorems: quota aggregation and poll-cycle containment -/

theorem reduceMinPercent_spec (t : List ModelQuotaInfo) (h : ModelQuotaInfo) :
    reduceMinPercent h t ∈ h :: t
    ∧ ∀ m ∈ h :: t,
        (reduceMinPercent h t).remainingPercent ≤ m.remainingPercent := by
  induction t generalizing h with
  | nil =>
      refine ⟨List.mem_singleton.mpr rfl, ?_⟩
      intro m hm
      rw [List.mem_singleton.mp hm]
      exact le_refl _
  | cons b t ih =>
      have hstep : reduceMinPercent h (b :: t)
          = reduceMinPercent
              (if b.remainingPercent < h.remainingPercent then b else h) t := rfl
      obtain ⟨ihm, ihmin⟩ :=
        ih (if b.remainingPercent < h.remainingPercent then b else h)
      constructor
      · rw [hstep]
        rcases List.mem_cons.mp ihm with hh | hh
        · rw [hh]
          by_cases hb : b.remainingPercent < h.remainingPercent
          · simp [hb]
          · simp [hb]
        · exact List.mem_cons_of_mem h (List.mem_cons_of_mem b hh)
      · intro m hm
        rw [hstep]
        have hle_h : (if b.remainingPercent < h.remainingPercent then b
            else h).remainingPercent ≤ h.remainingPercent := by
          by_cases hb : b.remainingPercent < h.remainingPercent
          · simp [hb]; exact le_of_lt hb
          · simp [hb]
        have hle_b : (if b.remainingPercent < h.remainingPercent then b
            else h).remainingPercent ≤ b.remainingPercent := by
          by_cases hb : b.remainingPercent < h.remainingPercent
          · simp [hb]
          · simp [hb]; exact le_of_not_lt hb
        have hhead := ihmin _ (List.mem_cons_self _ _)
        rcases List.mem_cons.mp hm with hh | hh
        · subst hh
          exact le_trans hhead hle_h
        · rcases List.mem_cons.mp hh with hh2 | hh2
          · subst hh2
            exact le_trans hhead hle_b
          · exact ihmin m (List.mem_cons_of_mem _ hh2)

/-- C6: for a successfully fetched quota record with at least one model
in a family, the family's effective percent is the minimum
remaining-percent over that family's models, and the family's reset time
is the reset time of a model attaining that minimum (the same model, not
the minimum or maximum of the reset times). -/
theorem quota_family_min (parseDateMs : String → Int)
    (cacheAccounts : List (String × AccountQuota)) (email : String)
    (projectId : Option String) (now : Int) (data : FetchModelsResponse) :
    ((fetchQuotaForAccount parseDateMs cacheAccounts email projectId now
        (.success data)).1.claudeModels ≠ [] →
      ∃ m ∈ (fetchQuotaForAccount parseDateMs cacheAccounts email projectId now
          (.success data)).1.claudeModels,
        (fetchQuotaForAccount parseDateMs cacheAccounts email projectId now
          (.success data)).1.claudeQuotaPercent = some m.remainingPercent
        ∧ (fetchQuotaForAccount parseDateMs cacheAccounts email projectId now
            (.success data)).1.claudeResetTime = m.resetTimeMs
        ∧ ∀ m2 ∈ (fetchQuotaForAccount parseDateMs cacheAccounts email projectId
            now (.success data)).1.claudeModels,
            m.remainingPercent ≤ m2.remainingPercent)
    ∧ ((fetchQuotaForAccount parseDateMs cacheAccounts email projectId now
        (.success data)).1.geminiModels ≠ [] →
      ∃ m ∈ (fetchQuotaForAccount parseDateMs cacheAccounts email projectId now
          (.success data)).1.geminiModels,
        (fetchQuotaForAccount parseDateMs cacheAccounts email projectId now
          (.success data)).1.geminiQuotaPercent = some m.remainingPercent
        ∧ (fetchQuotaForAccount parseDateMs cacheAccounts email projectId now
            (.success data)).1.geminiResetTime = m.resetTimeMs
        ∧ ∀ m2 ∈ (fetchQuotaForAccount parseDateMs cacheAccounts email projectId
            now (.success data)).1.geminiModels,
            m.remainingPercent ≤ m2.remainingPercent) := by
  rcases hcm : (parseQuotaResponse parseDateMs data).filter (fun m =>
      strIncludes (strToLower m.modelName) "claude" ||
      strIncludes (strToLower m.modelName) "anthropic") with _ | ⟨ch, ct⟩ <;>
    rcases hgm : (parseQuotaResponse parseDateMs data).filter (fun m =>
      strIncludes (strToLower m.modelName) "gemini") with _ | ⟨gh, gt⟩
  · constructor <;>
      (intro hne; exact absurd (by simp [fetchQuotaForAccount, hcm, hgm]) hne)
  · constructor
    · intro hne; exact absurd (by simp [fetchQuotaForAccount, hcm, hgm]) hne
    · intro hne
      obtain ⟨hmem, hmin⟩ := reduceMinPercent_spec gt gh
      refine ⟨reduceMinPercent gh gt, ?_, ?_, ?_, ?_⟩ <;>
        simp only [fetchQuotaForAccount, hcm, hgm] <;>
        first
          | exact hmem
          | exact hmin
  · constructor
    · intro hne
      obtain ⟨hmem, hmin⟩ := reduceMinPercent_spec ct ch
      refine ⟨reduceMinPercent ch ct, ?_, ?_, ?_, ?_⟩ <;>
        simp only [fetchQuotaForAccount, hcm, hgm] <;>
        first
          | exact hmem
          | exact hmin
    · intro hne; exact absurd (by simp [fetchQuotaForAccount, hcm, hgm]) hne
  · constructor
    · intro hne
      obtain ⟨hmem, hmin⟩ := reduceMinPercent_spec ct ch
      refine ⟨reduceMinPercent ch ct, ?_, ?_, ?_, ?_⟩ <;>
        simp only [fetchQuotaForAccount, hcm, hgm] <;>
        first
          | exact hmem
          | exact hmin
    · intro hne
      obtain ⟨hmem, hmin⟩ := reduceMinPercent_spec gt gh
      refine ⟨reduceMinPercent gh gt, ?_, ?_, ?_, ?_⟩ <;>
        simp only [fetchQuotaForAccount, hcm, hgm] <;>
        first
          | exact hmem
          | exact hmin
/-- A concrete quota provider response with two claude models and one
gemini model. -/
def exQuotaData : FetchModelsResponse :=
  { models := some [
      ("claude-3-opus",
       { displayName := none,
         quotaInfo := some { remainingFraction := some (2/5),
                             resetTime := some "T1" } }),
      ("claude-fast",
       { displayName := none,
         quotaInfo := some { remainingFraction := some (7/10),
                             resetTime := some "T2" } }),
      ("gemini-pro",
       { displayName := none,
         quotaInfo := some { remainingFraction := none,
                             resetTime := none } })] }

/-- Witness for C6 at a concrete response. -/
theorem quota_family_min_witness :
    ∃ m ∈ (fetchQuotaForAccount (fun _ => 0) [] "a@x" none 5
        (.success exQuotaData)).1.claudeModels,
      (fetchQuotaForAccount (fun _ => 0) [] "a@x" none 5
        (.success exQuotaData)).1.claudeQuotaPercent = some m.remainingPercent
      ∧ (fetchQuotaForAccount (fun _ => 0) [] "a@x" none 5
          (.success exQuotaData)).1.claudeResetTime = m.resetTimeMs
      ∧ ∀ m2 ∈ (fetchQuotaForAccount (fun _ => 0) [] "a@x" none 5
          (.success exQuotaData)).1.claudeModels,
          m.remainingPercent ≤ m2.remainingPercent :=
  (quota_family_min (fun _ => 0) [] "a@x" none 5 exQuotaData).1
    (by
      intro h
      have h2 : (fetchQuotaForAccount (fun _ => 0) [] "a@x" none 5
          (.success exQuotaData)).1.claudeModels.length = 2 := by decide
      rw [h] at h2
      simp at h2)

theorem fetchQuota_email (parseDateMs : String → Int)
    (cacheAccounts : List (String × AccountQuota)) (email : String)
    (projectId : Option String) (now : Int) (o : FetchOutcome) :
    (fetchQuotaForAccount parseDateMs cacheAccounts email projectId now
      o).1.email = email := by
  cases o with
  | tokenFailure => rfl
  | fetchFailure => rfl
  | success data =>
      rcases hcm : (parseQuotaResponse parseDateMs data).filter (fun m =>
          strIncludes (strToLower m.modelName) "claude" ||
          strIncludes (strToLower m.modelName) "anthropic") with _ | ⟨ch, ct⟩ <;>
        rcases hgm : (parseQuotaResponse parseDateMs data).filter (fun m =>
          strIncludes (strToLower m.modelName) "gemini") with _ | ⟨gh, gt⟩ <;>
        simp [fetchQuotaForAccount, baseQuota, hcm, hgm]

theorem fetchAllQuotas_emails (parseDateMs : String → Int) (now : Int)
    (reqs : List (QuotaFetchRequest × CycleOutcome))
    (acc : List AccountQuota × List (String × AccountQuota)) :
    ((reqs.foldl (fetchAllQuotasStep parseDateMs now) acc).1).map
        (fun q => q.email)
      = acc.1.map (fun q => q.email) ++ reqs.map (fun r => r.1.email) := by
  induction reqs generalizing acc with
  | nil => simp
  | cons r rest ih =>
      rw [List.foldl_cons, ih]
      rcases r with ⟨req, co⟩
      cases co with
      | ran o => simp [fetchAllQuotasStep, fetchQuota_email]
      | threw msg => simp [fetchAllQuotasStep, baseQuota]

/-- C7: a failed per-account poll cycle (no access token from the token
exchange, or every quota endpoint failed) is contained to that account:
the result records a fetchError, the cache map is returned entirely
unchanged (any previously cached record for that account is retained,
neither removed nor overwritten), and a full cycle still produces one
result per requested account in order. -/
theorem quota_failure_contained (parseDateMs : String → Int)
    (cacheAccounts : List (String × AccountQuota)) (email : String)
    (projectId : Option String) (now : Int) (o : FetchOutcome)
    (ho : o.isFailure = true) :
    ((fetchQuotaForAccount parseDateMs cacheAccounts email projectId now o).2
        = cacheAccounts
      ∧ (fetchQuotaForAccount parseDateMs cacheAccounts email projectId now
          o).1.fetchError.isSome = true
      ∧ (fetchQuotaForAccount parseDateMs cacheAccounts email projectId now
          o).1.email = email)
    ∧ (∀ (cache : QuotaCache) (reqs : List (QuotaFetchRequest × CycleOutcome))
        (now2 : Int),
        ((fetchAllQuotas parseDateMs cache reqs now2).1.map (fun q => q.email))
          = reqs.map (fun r => r.1.email)) := by
  constructor
  · cases o with
    | tokenFailure => exact ⟨rfl, rfl, rfl⟩
    | fetchFailure => exact ⟨rfl, rfl, rfl⟩
    | success data => simp [FetchOutcome.isFailure] at ho
  · intro cache reqs now2
    have h := fetchAllQuotas_emails parseDateMs now2 reqs ([], cache.accounts)
    simpa [fetchAllQuotas] using h

/-- Witness for C7 at a concrete failing poll. -/
theorem quota_failure_contained_witness :
    (fetchQuotaForAccount (fun _ => 0) [] "a@x" none 5 .tokenFailure).2 = []
    ∧ (fetchQuotaForAccount (fun _ => 0) [] "a@x" none 5
        .tokenFailure).1.fetchError.isSome = true
    ∧ ((fetchAllQuotas (fun _ => 0) { accounts := [], lastFullFetch := 0 }
        [({ email := "a@x", refreshToken := "r", projectId := none },
          CycleOutcome.ran .tokenFailure)] 5).1.map (fun q => q.email))
        = ["a@x"] :=
  ⟨(quota_failure_contained (fun _ => 0) [] "a@x" none 5 .tokenFailure rfl).1.1,
   (quota_failure_contained (fun _ => 0) [] "a@x" none 5
      .tokenFailure rfl).1.2.1,
   (quota_failure_contained (fun _ => 0) [] "a@x" none 5 .tokenFailure rfl).2
     { accounts := [], lastFullFetch := 0 }
     [({ email := "a@x", refreshToken := "r", projectId := none },
       CycleOutcome.ran .tokenFailure)] 5⟩

/-! ### Claim theorems: the status clock -/

theorem tickInfo_resetTime (i : RateLimitInfo) (now : Int) :
    (tickInfo i now).resetTime = i.resetTime := rfl

theorem tickInfo_isExpired (i : RateLimitInfo) (now : Int) :
    (tickInfo i now).isExpired = decide (i.resetTime ≤ now) := by
  show decide (max 0 (i.resetTime - now) = 0) = decide (i.resetTime ≤ now)
  exact decide_eq_decide.mpr (by omega)

theorem tickAccount_claude (now : Int) (a : LocalAccount) :
    (tickAccount now a).1.rateLimits.claude
      = a.rateLimits.claude.map (fun i => tickInfo i now) := rfl

theorem tickAccount_gemini (now : Int) (a : LocalAccount) :
    (tickAccount now a).1.rateLimits.gemini
      = a.rateLimits.gemini.map (fun i => tickInfo i now) := rfl

theorem tickAccount_email (now : Int) (a : LocalAccount) :
    (tickAccount now a).1.email = a.email := rfl

theorem tick_events_claude_count (now : Int) (a : LocalAccount) :
    ((tickAccount now a).2.1.countP (fun e => e.family == Family.claude))
      = (match a.rateLimits.claude with
         | some i => if !i.isExpired && (tickInfo i now).isExpired then 1 else 0
         | none => 0) := by
  rcases hc : a.rateLimits.claude with _ | i
  · rcases hg : a.rateLimits.gemini with _ | j
    · simp [tickAccount, hc, hg]
    · by_cases hj : (!j.isExpired && (tickInfo j now).isExpired) = true <;>
        simp [tickAccount, hc, hg, hj]
  · rcases hg : a.rateLimits.gemini with _ | j
    · by_cases hi : (!i.isExpired && (tickInfo i now).isExpired) = true <;>
        simp [tickAccount, hc, hg, hi]
    · by_cases hi : (!i.isExpired && (tickInfo i now).isExpired) = true <;>
        by_cases hj : (!j.isExpired && (tickInfo j now).isExpired) = true <;>
          simp [tickAccount, hc, hg, hi, hj]

theorem tick_events_email (now : Int) (a : LocalAccount) :
    ∀ ev ∈ (tickAccount now a).2.1, ev.email = a.email := by
  intro ev hev
  rcases hc : a.rateLimits.claude with _ | i <;>
    rcases hg : a.rateLimits.gemini with _ | j <;>
      simp only [tickAccount, hc, hg] at hev
  · simp at hev
  · revert hev
    split <;> intro hev <;> simp_all
  · revert hev
    split <;> intro hev <;> simp_all
  · revert hev
    split <;> split <;> intro hev <;> simp_all <;>
      rcases hev with h | h <;> simp [h]

theorem runTicks_cons (a : LocalAccount) (t : Int) (ts : List Int) :
    runTicks a (t :: ts)
      = ((runTicks (tickAccount t a).1 ts).1,
         (tickAccount t a).2.1 ++ (runTicks (tickAccount t a).1 ts).2) := rfl

theorem runTicks_claude_count_expired :
    ∀ (times : List Int) (a : LocalAccount) (i : RateLimitInfo),
      a.rateLimits.claude = some i → i.isExpired = true →
      (∀ t ∈ times, i.resetTime ≤ t) →
      ((runTicks a times).2.countP (fun e => e.family == Family.claude)) = 0 := by
  intro times
  induction times with
  | nil => intro a i _ _ _; simp [runTicks]
  | cons t ts ih =>
      intro a i hcl hexp hall
      rw [runTicks_cons, List.countP_append]
      have h1 : ((tickAccount t a).2.1.countP
          (fun e => e.family == Family.claude)) = 0 := by
        rw [tick_events_claude_count, hcl]
        simp [hexp]
      have hcl' : (tickAccount t a).1.rateLimits.claude
          = some (tickInfo i t) := by
        rw [tickAccount_claude, hcl]; rfl
      have hexp' : (tickInfo i t).isExpired = true := by
        rw [tickInfo_isExpired]
        exact decide_eq_true (hall t (List.mem_cons_self _ _))
      have hall' : ∀ t' ∈ ts, (tickInfo i t).resetTime ≤ t' := by
        intro t' ht'
        rw [tickInfo_resetTime]
        exact hall t' (List.mem_cons_of_mem _ ht')
      rw [h1, ih (tickAccount t a).1 (tickInfo i t) hcl' hexp' hall']

theorem runTicks_claude_count :
    ∀ (times : List Int) (a : LocalAccount) (i : RateLimitInfo),
      times.Sorted (· ≤ ·) →
      a.rateLimits.claude = some i → i.isExpired = false →
      ((runTicks a times).2.countP (fun e => e.family == Family.claude))
        = (if times.any (fun t => decide (i.resetTime ≤ t)) then 1 else 0) := by
  intro times
  induction times with
  | nil => intro a i _ _ _; simp [runTicks]
  | cons t ts ih =>
      intro a i hsorted hcl hexp
      rw [runTicks_cons, List.countP_append]
      have hcl' : (tickAccount t a).1.rateLimits.claude
          = some (tickInfo i t) := by
        rw [tickAccount_claude, hcl]; rfl
      by_cases hrt : i.resetTime ≤ t
      · have h1 : ((tickAccount t a).2.1.countP
            (fun e => e.family == Family.claude)) = 1 := by
          rw [tick_events_claude_count, hcl]
          simp [hexp, tickInfo_isExpired, hrt]
        have hexp' : (tickInfo i t).isExpired = true := by
          rw [tickInfo_isExpired]; exact decide_eq_true hrt
        have hall' : ∀ t' ∈ ts, (tickInfo i t).resetTime ≤ t' := by
          intro t' ht'
          rw [tickInfo_resetTime]
          exact le_trans hrt (List.rel_of_sorted_cons hsorted t' ht')
        rw [h1, runTicks_claude_count_expired ts (tickAccount t a).1
          (tickInfo i t) hcl' hexp' hall']
        simp [List.any_cons, hrt]
      · have h1 : ((tickAccount t a).2.1.countP
            (fun e => e.family == Family.claude)) = 0 := by
          rw [tick_events_claude_count, hcl]
          simp [hexp, tickInfo_isExpired, hrt]
        have hexp' : (tickInfo i t).isExpired = false := by
          rw [tickInfo_isExpired]; exact decide_eq_false hrt
        have hrec := ih (tickAccount t a).1 (tickInfo i t)
          hsorted.of_cons hcl' hexp'
        rw [h1, hrec]
        simp only [tickInfo_resetTime]
        simp [List.any_cons, hrt]

theorem runTicks_events_email :
    ∀ (times : List Int) (a : LocalAccount),
      ∀ ev ∈ (runTicks a times).2, ev.email = a.email := by
  intro times
  induction times with
  | nil => intro a ev hev; simp [runTicks] at hev
  | cons t ts ih =>
      intro a ev hev
      rw [runTicks_cons] at hev
      rcases List.mem_append.mp hev with h | h
      · exact tick_events_email t a ev h
      · have hrec := ih (tickAccount t a).1 ev h
        rw [tickAccount_email] at hrec
        exact hrec

theorem runTicks_status :
    ∀ (times : List Int) (a : LocalAccount), times ≠ [] →
      (runTicks a times).1.status
        = calculateAccountStatus (runTicks a times).1 := by
  intro times
  induction times with
  | nil => intro a h; exact absurd rfl h
  | cons t ts ih =>
      intro a _
      by_cases hts : ts = []
      · subst hts
        exact tickAccount_status t a
      · have hrec := ih (tickAccount t a).1 hts
        rw [runTicks_cons]
        exact hrec

theorem runTicks_gemini_none :
    ∀ (times : List Int) (a : LocalAccount),
      a.rateLimits.gemini = none →
      (runTicks a times).1.rateLimits.gemini = none := by
  intro times
  induction times with
  | nil => intro a h; exact h
  | cons t ts ih =>
      intro a h
      rw [runTicks_cons]
      exact ih (tickAccount t a).1 (by rw [tickAccount_gemini, h]; rfl)

theorem runTicks_claude_final :
    ∀ (times : List Int) (a : LocalAccount) (i : RateLimitInfo),
      times.Sorted (· ≤ ·) →
      a.rateLimits.claude = some i →
      (∃ t ∈ times, i.resetTime ≤ t) →
      ∃ i', (runTicks a times).1.rateLimits.claude = some i'
        ∧ i'.isExpired = true := by
  intro times
  induction times with
  | nil =>
      intro a i _ _ hex
      rcases hex with ⟨t, ht, _⟩
      simp at ht
  | cons t ts ih =>
      intro a i hsorted hcl hex
      have hcl' : (tickAccount t a).1.rateLimits.claude
          = some (tickInfo i t) := by
        rw [tickAccount_claude, hcl]; rfl
      by_cases hts : ts = []
      · subst hts
        rcases hex with ⟨tw, htw, hle⟩
        have htwt : tw = t := by simpa using htw
        subst htwt
        refine ⟨tickInfo i tw, hcl', ?_⟩
        rw [tickInfo_isExpired]
        exact decide_eq_true hle
      · have hex' : ∃ t' ∈ ts, (tickInfo i t).resetTime ≤ t' := by
          rcases hex with ⟨tw, htw, hle⟩
          rcases List.mem_cons.mp htw with h | h
          · subst h
            rcases hts2 : ts with _ | ⟨t2, ts2⟩
            · exact absurd hts2 hts
            · refine ⟨t2, List.mem_cons_self _ _, ?_⟩
              rw [tickInfo_resetTime]
              refine le_trans hle (List.rel_of_sorted_cons hsorted t2 ?_)
              rw [hts2]
              exact List.mem_cons_self _ _
          · exact ⟨tw, h, by rw [tickInfo_resetTime]; exact hle⟩
        have hrec := ih (tickAccount t a).1 (tickInfo i t)
          hsorted.of_cons hcl' hex'
        rw [runTicks_cons]
        exact hrec

theorem calcStatus_available (b : LocalAccount) (i : RateLimitInfo)
    (hcl : b.rateLimits.claude = some i) (hexp : i.isExpired = true)
    (hg : b.rateLimits.gemini = none) :
    calculateAccountStatus b = .available := by
  simp [calculateAccountStatus, hcl, hexp, hg]

theorem tick_events_gemini_count (now : Int) (a : LocalAccount) :
    ((tickAccount now a).2.1.countP (fun e => e.family == Family.gemini))
      = (match a.rateLimits.gemini with
         | some i => if !i.isExpired && (tickInfo i now).isExpired then 1 else 0
         | none => 0) := by
  rcases hc : a.rateLimits.claude with _ | i
  · rcases hg : a.rateLimits.gemini with _ | j
    · simp [tickAccount, hc, hg]
    · by_cases hj : (!j.isExpired && (tickInfo j now).isExpired) = true <;>
        simp [tickAccount, hc, hg, hj]
  · rcases hg : a.rateLimits.gemini with _ | j
    · by_cases hi : (!i.isExpired && (tickInfo i now).isExpired) = true <;>
        simp [tickAccount, hc, hg, hi]
    · by_cases hi : (!i.isExpired && (tickInfo i now).isExpired) = true <;>
        by_cases hj : (!j.isExpired && (tickInfo j now).isExpired) = true <;>
          simp [tickAccount, hc, hg, hi, hj]

theorem runTicks_gemini_count_expired :
    ∀ (times : List Int) (a : LocalAccount) (i : RateLimitInfo),
      a.rateLimits.gemini = some i → i.isExpired = true →
      (∀ t ∈ times, i.resetTime ≤ t) →
      ((runTicks a times).2.countP (fun e => e.family == Family.gemini)) = 0 := by
  intro times
  induction times with
  | nil => intro a i _ _ _; simp [runTicks]
  | cons t ts ih =>
      intro a i hcl hexp hall
      rw [runTicks_cons, List.countP_append]
      have h1 : ((tickAccount t a).2.1.countP
          (fun e => e.family == Family.gemini)) = 0 := by
        rw [tick_events_gemini_count, hcl]
        simp [hexp]
      have hcl' : (tickAccount t a).1.rateLimits.gemini
          = some (tickInfo i t) := by
        rw [tickAccount_gemini, hcl]; rfl
      have hexp' : (tickInfo i t).isExpired = true := by
        rw [tickInfo_isExpired]
        exact decide_eq_true (hall t (List.mem_cons_self _ _))
      have hall' : ∀ t' ∈ ts, (tickInfo i t).resetTime ≤ t' := by
        intro t' ht'
        rw [tickInfo_resetTime]
        exact hall t' (List.mem_cons_of_mem _ ht')
      rw [h1, ih (tickAccount t a).1 (tickInfo i t) hcl' hexp' hall']

theorem runTicks_gemini_count :
    ∀ (times : List Int) (a : LocalAccount) (i : RateLimitInfo),
      times.Sorted (· ≤ ·) →
      a.rateLimits.gemini = some i → i.isExpired = false →
      ((runTicks a times).2.countP (fun e => e.family == Family.gemini))
        = (if times.any (fun t => decide (i.resetTime ≤ t)) then 1 else 0) := by
  intro times
  induction times with
  | nil => intro a i _ _ _; simp [runTicks]
  | cons t ts ih =>
      intro a i hsorted hcl hexp
      rw [runTicks_cons, List.countP_append]
      have hcl' : (tickAccount t a).1.rateLimits.gemini
          = some (tickInfo i t) := by
        rw [tickAccount_gemini, hcl]; rfl
      by_cases hrt : i.resetTime ≤ t
      · have h1 : ((tickAccount t a).2.1.countP
            (fun e => e.family == Family.gemini)) = 1 := by
          rw [tick_events_gemini_count, hcl]
          simp [hexp, tickInfo_isExpired, hrt]
        have hexp' : (tickInfo i t).isExpired = true := by
          rw [tickInfo_isExpired]; exact decide_eq_true hrt
        have hall' : ∀ t' ∈ ts, (tickInfo i t).resetTime ≤ t' := by
          intro t' ht'
          rw [tickInfo_resetTime]
          exact le_trans hrt (List.rel_of_sorted_cons hsorted t' ht')
        rw [h1, runTicks_gemini_count_expired ts (tickAccount t a).1
          (tickInfo i t) hcl' hexp' hall']
        simp [List.any_cons, hrt]
      · have h1 : ((tickAccount t a).2.1.countP
            (fun e => e.family == Family.gemini)) = 0 := by
          rw [tick_events_gemini_count, hcl]
          simp [hexp, tickInfo_isExpired, hrt]
        have hexp' : (tickInfo i t).isExpired = false := by
          rw [tickInfo_isExpired]; exact decide_eq_false hrt
        have hrec := ih (tickAccount t a).1 (tickInfo i t)
          hsorted.of_cons hcl' hexp'
        rw [h1, hrec]
        simp only [tickInfo_resetTime]
        simp [List.any_cons, hrt]

theorem runTicks_claude_none :
    ∀ (times : List Int) (a : LocalAccount),
      a.rateLimits.claude = none →
      (runTicks a times).1.rateLimits.claude = none := by
  intro times
  induction times with
  | nil => intro a h; exact h
  | cons t ts ih =>
      intro a h
      rw [runTicks_cons]
      exact ih (tickAccount t a).1 (by rw [tickAccount_claude, h]; rfl)

theorem runTicks_gemini_final :
    ∀ (times : List Int) (a : LocalAccount) (i : RateLimitInfo),
      times.Sorted (· ≤ ·) →
      a.rateLimits.gemini = some i →
      (∃ t ∈ times, i.resetTime ≤ t) →
      ∃ i', (runTicks a times).1.rateLimits.gemini = some i'
        ∧ i'.isExpired = true := by
  intro times
  induction times with
  | nil =>
      intro a i _ _ hex
      rcases hex with ⟨t, ht, _⟩
      simp at ht
  | cons t ts ih =>
      intro a i hsorted hcl hex
      have hcl' : (tickAccount t a).1.rateLimits.gemini
          = some (tickInfo i t) := by
        rw [tickAccount_gemini, hcl]; rfl
      by_cases hts : ts = []
      · subst hts
        rcases hex with ⟨tw, htw, hle⟩
        have htwt : tw = t := by simpa using htw
        subst htwt
        refine ⟨tickInfo i tw, hcl', ?_⟩
        rw [tickInfo_isExpired]
        exact decide_eq_true hle
      · have hex' : ∃ t' ∈ ts, (tickInfo i t).resetTime ≤ t' := by
          rcases hex with ⟨tw, htw, hle⟩
          rcases List.mem_cons.mp htw with h | h
          · subst h
            rcases hts2 : ts with _ | ⟨t2, ts2⟩
            · exact absurd hts2 hts
            · refine ⟨t2, List.mem_cons_self _ _, ?_⟩
              rw [tickInfo_resetTime]
              refine le_trans hle (List.rel_of_sorted_cons hsorted t2 ?_)
              rw [hts2]
              exact List.mem_cons_self _ _
          · exact ⟨tw, h, by rw [tickInfo_resetTime]; exact hle⟩
        have hrec := ih (tickAccount t a).1 (tickInfo i t)
          hsorted.of_cons hcl' hex'
        rw [runTicks_cons]
        exact hrec

theorem calcStatus_available_of_gemini (b : LocalAccount) (i : RateLimitInfo)
    (hg : b.rateLimits.gemini = some i) (hexp : i.isExpired = true)
    (hcl : b.rateLimits.claude = none) :
    calculateAccountStatus b = .available := by
  simp [calculateAccountStatus, hcl, hexp, hg]

/-- C8: across a monotone sequence of status-clock ticks with the stored
resetTime unchanged (ticks never change it), an account whose claude
rate-limit info is present and not expired, once some tick time reaches
the reset time, emits exactly one rate_limit_cleared event for the
claude family over the whole sequence — never zero, never more than one
on subsequent ticks; every emitted event carries this account's email,
and the status is recomputed by the section 4.2 rule, so an account
limited only in the claude family ends up available after the flip. -/
theorem rate_limit_cleared_once (a : LocalAccount) (times : List Int)
    (i : RateLimitInfo)
    (hsorted : times.Sorted (· ≤ ·))
    (hexp : i.isExpired = false)
    (hreach : ∃ t ∈ times, i.resetTime ≤ t) :
    (∀ ev ∈ (runTicks a times).2, ev.email = a.email)
    ∧ (a.rateLimits.claude = some i →
        ((runTicks a times).2.countP (fun e => e.family == Family.claude)) = 1
        ∧ (a.rateLimits.gemini = none →
            (runTicks a times).1.status = AccountStatus.available))
    ∧ (a.rateLimits.gemini = some i →
        ((runTicks a times).2.countP (fun e => e.family == Family.gemini)) = 1
        ∧ (a.rateLimits.claude = none →
            (runTicks a times).1.status = AccountStatus.available)) := by
  have hne : times ≠ [] := by
    rcases hreach with ⟨t, ht, _⟩
    intro hnil
    rw [hnil] at ht
    simp at ht
  have hany : times.any (fun t => decide (i.resetTime ≤ t)) = true := by
    rcases hreach with ⟨t, ht, hle⟩
    exact List.any_eq_true.mpr ⟨t, ht, decide_eq_true hle⟩
  refine ⟨runTicks_events_email times a, fun hcl => ⟨?_, ?_⟩,
    fun hgm => ⟨?_, ?_⟩⟩
  · rw [runTicks_claude_count times a i hsorted hcl hexp, hany]
    rfl
  · intro hg
    obtain ⟨i', hcl', hexp'⟩ :=
      runTicks_claude_final times a i hsorted hcl hreach
    rw [runTicks_status times a hne]
    exact calcStatus_available _ i' hcl' hexp'
      (runTicks_gemini_none times a hg)
  · rw [runTicks_gemini_count times a i hsorted hgm hexp, hany]
    rfl
  · intro hc
    obtain ⟨i', hgm', hexp'⟩ :=
      runTicks_gemini_final times a i hsorted hgm hreach
    rw [runTicks_status times a hne]
    exact calcStatus_available_of_gemini _ i' hgm' hexp'
      (runTicks_claude_none times a hc)

/-- Witness for C8 at a concrete account and tick sequence. -/
theorem rate_limit_cleared_once_witness :
    ((runTicks exAccountA [15000, 61000, 75000]).2.countP
        (fun e => e.family == Family.claude)) = 1
    ∧ (∀ ev ∈ (runTicks exAccountA [15000, 61000, 75000]).2,
        ev.email = exAccountA.email)
    ∧ (runTicks exAccountA [15000, 61000, 75000]).1.status
        = AccountStatus.available := by
  have h := rate_limit_cleared_once exAccountA [15000, 61000, 75000]
    { resetTime := 60000, timeUntilReset := 60000, isExpired := false }
    (by decide) rfl ⟨61000, by decide, by decide⟩
  exact ⟨(h.2.1 rfl).1, h.1, (h.2.1 rfl).2 rfl⟩
